import Mathlib

/-!
Shallow embedding of the Sollumz fragment/drawable reconstruction core
(`src/yft/create_drawable_mesh.py`, `src/yft/geometry_data.py`,
`src/yft/import_cwxml/physicslod.py`, `src/yft/export_cwxml/physicslod.py`,
`src/yft/import_cwxml/window.py`, `src/ydr/import_cwxml/geometry.py`)
together with theorems settling the frozen claims about it.

Conventions: Python floats become exact rationals (`ℚ`); Python dicts become
insertion-ordered association lists with unique keys (lookup takes the first
binding, update rewrites the first binding in place, new keys are appended —
exactly CPython's ordered-dict semantics on lists that arise from dict
operations); fallible code (`IndexError`, `NameError`, non-invertible
matrices) returns `Option`.
-/

namespace Sollumz

/-- Insertion-ordered association list, the model of a Python `dict` /
`defaultdict(list)` keyed by `Nat`. -/
abbrev AList (α : Type) := List (Nat × α)

/-- Python `d[k]` on a `defaultdict(list)`: the stored value, or `[]` when the
key is absent. -/
def alGet : AList (List α) → Nat → List α
  | [], _ => []
  | kv :: rest, k => if kv.1 = k then kv.2 else alGet rest k

/-- Python `defaultdict(list)`: `d[k].extend(xs)` — append `xs` to the list at
key `k`, inserting the key at the end (insertion order) when absent. -/
def alExtend : AList (List α) → Nat → List α → AList (List α)
  | [], k, xs => [(k, xs)]
  | kv :: rest, k, xs =>
    if kv.1 = k then (kv.1, kv.2 ++ xs) :: rest else kv :: alExtend rest k xs

/-- Python `dict` assignment `d[k] = v`: overwrite in place when the key
exists (keeping its position), otherwise append the new binding. -/
def dictInsert : List (Nat × ℚ) → Nat → ℚ → List (Nat × ℚ)
  | [], k, v => [(k, v)]
  | kv :: rest, k, v =>
    if kv.1 = k then (k, v) :: rest else kv :: dictInsert rest k v

/-- `split_indices` (`create_drawable_mesh.py:428`): slice the flat index list
into chunks of 3 starting at positions 0, 3, 6, …; the final chunk is shorter
when the length is not a multiple of 3 (Python's slicing truncates silently). -/
def split_indices : List Nat → List (List Nat)
  | [] => []
  | [a] => [[a]]
  | [a, b] => [[a, b]]
  | a :: b :: c :: rest => [a, b, c] :: split_indices rest

/-- A raw interleaved vertex record (a `NamedTuple` row of
`vertex_buffer.get_data()`). `position` is mandatory; `normal` and the blend
data (`blendindices`/`blendweights`, 4 byte slots each) are present only for
some layouts (`hasattr` checks); `texcoord*`/`colour*` fields are collected in
declaration order. Blend weights are raw bytes 0..255, kept as `Nat`. -/
structure SourceVertex where
  position : ℚ × ℚ × ℚ
  normal : Option (ℚ × ℚ × ℚ)
  blend : Option (List Nat × List Nat)
  texcoords : List (ℚ × ℚ)
  colours : List (ℚ × ℚ × ℚ × ℚ)
  deriving DecidableEq

/-- `VertexAttributes` (`geometry_data.py:12`): canonical decomposition of a
raw vertex record. `weights` models the Python dict `bone_index → weight`. -/
structure VertexAttributes where
  position : ℚ × ℚ × ℚ
  normal : Option (ℚ × ℚ × ℚ)
  uv : List (ℚ × ℚ)
  colors : List (ℚ × ℚ × ℚ × ℚ)
  weights : List (Nat × ℚ)
  deriving DecidableEq

/-- The dict comprehension in `VertexAttributes.from_vertex`
(`geometry_data.py:38`): `{i: w / 255 for i, w in zip(blendindices,
blendweights) if not (w == 0 and i == 0)}`. Later pairs with an already-seen
bone index overwrite the stored weight (dict semantics). -/
def blend_weights_dict (blendindices blendweights : List Nat) : List (Nat × ℚ) :=
  (blendindices.zip blendweights).foldl
    (fun d iw =>
      if iw.2 = 0 ∧ iw.1 = 0 then d else dictInsert d iw.1 ((iw.2 : ℚ) / 255))
    []

/-- `VertexAttributes.from_vertex` (`geometry_data.py:21`). -/
def VertexAttributes.from_vertex (vertex : SourceVertex) : VertexAttributes :=
  { position := vertex.position
    normal := vertex.normal
    uv := vertex.texcoords
    colors := vertex.colours
    weights :=
      match vertex.blend with
      | none => []
      | some (bi, bw) => blend_weights_dict bi bw }

/-- `GeometryData` (`geometry_data.py:53`): the joined mesh data. `faces` are
stored as Python lists (`[i + num_verts for i in face]`), so a trailing short
chunk from `split_indices` stays short here. -/
structure GeometryData where
  vertices : List (ℚ × ℚ × ℚ)
  normals : List (ℚ × ℚ × ℚ)
  faces : List (List Nat)
  material_indices : List Nat
  uv : AList (List (ℚ × ℚ))
  colors : AList (List (ℚ × ℚ × ℚ × ℚ))
  vertex_groups : AList (List (Nat × ℚ))

/-- `GeometryData()`: all fields start empty. -/
def GeometryData.empty : GeometryData :=
  ⟨[], [], [], [], [], [], []⟩

/-- `GeometryData.add_vertex` (`geometry_data.py:72`): append the position,
then the optional normal, then each colour/uv layer, then one
`(vert_index, weight)` entry per weighted bone. -/
def GeometryData.add_vertex (gd : GeometryData) (vert_attrs : VertexAttributes) :
    GeometryData :=
  let vertices := gd.vertices ++ [vert_attrs.position]
  let vert_index := vertices.length - 1
  { vertices := vertices
    normals :=
      match vert_attrs.normal with
      | some n => gd.normals ++ [n]
      | none => gd.normals
    faces := gd.faces
    material_indices := gd.material_indices
    colors :=
      (vert_attrs.colors.enum).foldl
        (fun acc ci => alExtend acc ci.1 [ci.2]) gd.colors
    uv :=
      (vert_attrs.uv.enum).foldl
        (fun acc pi => alExtend acc pi.1 [pi.2]) gd.uv
    vertex_groups :=
      vert_attrs.weights.foldl
        (fun acc bw => alExtend acc bw.1 [(vert_index, bw.2)]) gd.vertex_groups }

/-- One geometry block as consumed by the joiner: `vertex_buffer.get_data()`,
`index_buffer.data` and `shader_index` of a `GeometryItem`. -/
structure GeometryItem where
  vertex_data : List SourceVertex
  index_data : List Nat
  shader_index : Nat

/-- Loop body of `get_vertex_data_by_shader_index`
(`create_drawable_mesh.py:263`): for the `i`-th block (`i > 0`) the indices
are offset by the current number of vertices accumulated under that block's
shader index, then both dicts are extended. -/
def gvd_step (acc : AList (List SourceVertex) × AList (List Nat)) (i : Nat)
    (geometry : GeometryItem) :
    AList (List SourceVertex) × AList (List Nat) :=
  let verts_by_shader := acc.1
  let ind_by_shader := acc.2
  let index_data :=
    if i > 0 then
      geometry.index_data.map
        (fun vert_index => vert_index + (alGet verts_by_shader geometry.shader_index).length)
    else geometry.index_data
  (alExtend verts_by_shader geometry.shader_index geometry.vertex_data,
   alExtend ind_by_shader geometry.shader_index index_data)

/-- `get_vertex_data_by_shader_index` (`create_drawable_mesh.py:263`). -/
def get_vertex_data_by_shader_index (geometries : List GeometryItem) :
    AList (List SourceVertex) × AList (List Nat) :=
  (geometries.enum).foldl (fun acc gi => gvd_step acc gi.1 gi.2) ([], [])

/-- Inner loop of `join_geometries` (`create_drawable_mesh.py:173`): one pass
for the pair `(shader_index, indices)`, appending the offset faces with their
material index and then the shader's vertices. -/
def join_pass (verts_by_shader : AList (List SourceVertex)) (gd : GeometryData)
    (shader_index : Nat) (indices : List Nat) : GeometryData :=
  let num_verts := gd.vertices.length
  let gd1 : GeometryData :=
    { gd with
      faces := gd.faces ++ (split_indices indices).map (fun face => face.map (· + num_verts))
      material_indices :=
        gd.material_indices ++ List.replicate (split_indices indices).length shader_index }
  (alGet verts_by_shader shader_index).foldl
    (fun acc vertex => acc.add_vertex (VertexAttributes.from_vertex vertex)) gd1

/-- `join_geometries` (`create_drawable_mesh.py:167`). -/
def join_geometries (geometries : List GeometryItem) : GeometryData :=
  let vi := get_vertex_data_by_shader_index geometries
  vi.2.foldl (fun gd si => join_pass vi.1 gd si.1 si.2) GeometryData.empty

/-- The name chosen for one vertex-group key inside
`GeometryData.create_vertex_groups` (`geometry_data.py:146`; identically in
`ydr/import_cwxml/geometry.py:114`): `bone_name = "UNKNOWN_BONE"`, overridden
by the skeleton bone's name when `bones` is non-empty (Python truthiness) and
the index is in range, else by `f"EXTERNAL_BONE.{bone_index}"` when `bone_ids`
is non-empty and the index is in range. Bones are modelled by their names. -/
def bone_group_name (bones : List String) (bone_ids : List Nat)
    (bone_index : Nat) : String :=
  if bones ≠ [] ∧ bone_index < bones.length then bones.getD bone_index ""
  else if bone_ids ≠ [] ∧ bone_index < bone_ids.length then
    "EXTERNAL_BONE." ++ toString bone_index
  else "UNKNOWN_BONE"

/-- `GeometryData.create_vertex_groups` (`geometry_data.py:135`), restricted
to the group names it creates: one `obj.vertex_groups.new(name=bone_name)`
call per key of `self.vertex_groups`, in key order. -/
def create_vertex_groups (vertex_group_keys : List Nat) (bones : List String)
    (bone_ids : List Nat) : List String :=
  vertex_group_keys.map (bone_group_name bones bone_ids)

/-- Modelled from the spec: `get_list_item` lives in `tools/utils.py`, which
is not under `src/`. Per the spec's fallback semantics (§4.6: an index must
refer to an already-built entry, "else … fallback"; §7: out-of-range indices
are recoverable, not exceptions), it returns the element at the index when the
index is a valid position and `None` otherwise. -/
def get_list_item (l : List α) (index : Nat) : Option α :=
  l[index]?

/-- `PhysicsLodCWXMLConverter.get_physics_group_parent`
(`import_cwxml/physicslod.py:79`). Result: chosen parent paired with whether
the "index not found" warning was reported. `groups` is the list of
already-built groups, `lod_root` is `self.bpy_object`. -/
def get_physics_group_parent (groups : List α) (lod_root : α)
    (parent_index : Nat) : α × Bool :=
  if parent_index = 255 then (lod_root, false)
  else
    match get_list_item groups parent_index with
    | some parent => (parent, false)
    | none => (lod_root, true)

/-- Loop of `get_root_bone_parent_index` (`create_drawable_mesh.py:351`),
with explicit fuel: `while bones[i].parent_index > 0: i = bones[i].parent_index`.
Bones are modelled by their `parent_index` (`Int`, since the root's parent is
-1). `none` models a Python `IndexError` or non-termination. -/
def root_bone_loop (bones : List Int) : Nat → Nat → Option Nat
  | 0, _ => none
  | fuel + 1, i =>
    match bones[i]? with
    | none => none
    | some p => if p > 0 then root_bone_loop bones fuel p.toNat else some i

/-- `get_root_bone_parent_index` (`create_drawable_mesh.py:351`): walk the
parent chain until a bone with `parent_index <= 0` is reached. `bones.length + 1`
steps of fuel are enough whenever the chain strictly descends. -/
def get_root_bone_parent_index (bones : List Int) (bone_index : Nat) : Option Nat :=
  root_bone_loop bones (bones.length + 1) bone_index

/-- Loop of `find_common_root_bone_parent` (`create_drawable_mesh.py:334`).
State: `last` is `last_root_parent_index` (initially -1) and `rpi` the
`root_parent_index` variable of the previous iteration (initially unassigned,
modelled `none`: returning it for an empty input is Python's `NameError`). -/
def common_root_loop (bones : List Int) :
    Int → Option Nat → List Nat → Option Nat
  | _, rpi, [] => rpi
  | last, _, bone_index :: rest =>
    match get_root_bone_parent_index bones bone_index with
    | none => none
    | some root_parent_index =>
      if last = -1 then
        common_root_loop bones (root_parent_index : Int) (some root_parent_index) rest
      else if last ≠ (root_parent_index : Int) then some 0
      else common_root_loop bones last (some root_parent_index) rest

/-- `find_common_root_bone_parent` (`create_drawable_mesh.py:334`). -/
def find_common_root_bone_parent (bone_indices : List Nat) (bones : List Int) :
    Option Nat :=
  common_root_loop bones (-1) none bone_indices

/-- A row-major 4×4 matrix over exact rationals (`mathutils.Matrix`;
`m30` is Python's `matrix[3][0]`). -/
structure Mat4 where
  m00 : ℚ
  m01 : ℚ
  m02 : ℚ
  m03 : ℚ
  m10 : ℚ
  m11 : ℚ
  m12 : ℚ
  m13 : ℚ
  m20 : ℚ
  m21 : ℚ
  m22 : ℚ
  m23 : ℚ
  m30 : ℚ
  m31 : ℚ
  m32 : ℚ
  m33 : ℚ
  deriving DecidableEq

/-- `Matrix.transposed()`. -/
def Mat4.transposed (a : Mat4) : Mat4 :=
  ⟨a.m00, a.m10, a.m20, a.m30,
   a.m01, a.m11, a.m21, a.m31,
   a.m02, a.m12, a.m22, a.m32,
   a.m03, a.m13, a.m23, a.m33⟩

/-- The 4×4 identity matrix (`mathutils.Matrix()`). -/
def Mat4.identity : Mat4 :=
  ⟨1, 0, 0, 0, 0, 1, 0, 0, 0, 0, 1, 0, 0, 0, 0, 1⟩

/-- `PhysicsLodCWXMLConverter.get_child_transform`
(`import_cwxml/physicslod.py:113`), on the path where a stored transform
exists at the child's index: add the LOD's `position_offset` to the
translation entries `transform[3][0..2]`, then transpose. -/
def get_child_transform (transform : Mat4) (position_offset : ℚ × ℚ × ℚ) : Mat4 :=
  let a := transform.m30 + position_offset.1
  let b := transform.m31 + position_offset.2.1
  let c := transform.m32 + position_offset.2.2
  ({ transform with m30 := a, m31 := b, m32 := c }).transposed

/-- The transform-correction step as the claim states it (for the refinement
comparison only): the stored matrix with `position_offset` SUBTRACTED from its
translation components, then transposed. -/
def get_child_transform_claimed (transform : Mat4)
    (position_offset : ℚ × ℚ × ℚ) : Mat4 :=
  ({ transform with
      m30 := transform.m30 - position_offset.1
      m31 := transform.m31 - position_offset.2.1
      m32 := transform.m32 - position_offset.2.2 }).transposed

/-- `PhysicsLodBPYConverter.create_physics_child_transforms`
(`export_cwxml/physicslod.py:83`): transpose the child's matrix, then subtract
the LOD's `position_offset` from the translation entries `transform[3][0..2]`
of the transposed matrix. -/
def create_physics_child_transforms (matrix_basis : Mat4)
    (pos_offset : ℚ × ℚ × ℚ) : Mat4 :=
  let transform := matrix_basis.transposed
  let a := transform.m30 - pos_offset.1
  let b := transform.m31 - pos_offset.2.1
  let c := transform.m32 - pos_offset.2.2
  { transform with m30 := a, m31 := b, m32 := c }

/-- Determinant of a 3×3 matrix given entrywise (row by row). -/
def det3 (a b c d e f g h i : ℚ) : ℚ :=
  a * (e * i - f * h) - b * (d * i - f * g) + c * (d * h - e * g)

/-- Determinant of a `Mat4` (cofactor expansion along the first row). -/
def Mat4.det (x : Mat4) : ℚ :=
  x.m00 * det3 x.m11 x.m12 x.m13 x.m21 x.m22 x.m23 x.m31 x.m32 x.m33
  - x.m01 * det3 x.m10 x.m12 x.m13 x.m20 x.m22 x.m23 x.m30 x.m32 x.m33
  + x.m02 * det3 x.m10 x.m11 x.m13 x.m20 x.m21 x.m23 x.m30 x.m31 x.m33
  - x.m03 * det3 x.m10 x.m11 x.m12 x.m20 x.m21 x.m22 x.m30 x.m31 x.m32

/-- Adjugate of a `Mat4`: entry `(i, j)` is the `(j, i)` cofactor. -/
def Mat4.adjugate (x : Mat4) : Mat4 where
  m00 := det3 x.m11 x.m12 x.m13 x.m21 x.m22 x.m23 x.m31 x.m32 x.m33
  m01 := -det3 x.m01 x.m02 x.m03 x.m21 x.m22 x.m23 x.m31 x.m32 x.m33
  m02 := det3 x.m01 x.m02 x.m03 x.m11 x.m12 x.m13 x.m31 x.m32 x.m33
  m03 := -det3 x.m01 x.m02 x.m03 x.m11 x.m12 x.m13 x.m21 x.m22 x.m23
  m10 := -det3 x.m10 x.m12 x.m13 x.m20 x.m22 x.m23 x.m30 x.m32 x.m33
  m11 := det3 x.m00 x.m02 x.m03 x.m20 x.m22 x.m23 x.m30 x.m32 x.m33
  m12 := -det3 x.m00 x.m02 x.m03 x.m10 x.m12 x.m13 x.m30 x.m32 x.m33
  m13 := det3 x.m00 x.m02 x.m03 x.m10 x.m12 x.m13 x.m20 x.m22 x.m23
  m20 := det3 x.m10 x.m11 x.m13 x.m20 x.m21 x.m23 x.m30 x.m31 x.m33
  m21 := -det3 x.m00 x.m01 x.m03 x.m20 x.m21 x.m23 x.m30 x.m31 x.m33
  m22 := det3 x.m00 x.m01 x.m03 x.m10 x.m11 x.m13 x.m30 x.m31 x.m33
  m23 := -det3 x.m00 x.m01 x.m03 x.m10 x.m11 x.m13 x.m20 x.m21 x.m23
  m30 := -det3 x.m10 x.m11 x.m12 x.m20 x.m21 x.m22 x.m30 x.m31 x.m32
  m31 := det3 x.m00 x.m01 x.m02 x.m20 x.m21 x.m22 x.m30 x.m31 x.m32
  m32 := -det3 x.m00 x.m01 x.m02 x.m10 x.m11 x.m12 x.m30 x.m31 x.m32
  m33 := det3 x.m00 x.m01 x.m02 x.m10 x.m11 x.m12 x.m20 x.m21 x.m22

/-- Scalar multiple of a `Mat4`. -/
def Mat4.smul (c : ℚ) (x : Mat4) : Mat4 :=
  ⟨c * x.m00, c * x.m01, c * x.m02, c * x.m03,
   c * x.m10, c * x.m11, c * x.m12, c * x.m13,
   c * x.m20, c * x.m21, c * x.m22, c * x.m23,
   c * x.m30, c * x.m31, c * x.m32, c * x.m33⟩

/-- `Matrix.inverted()`: the classical-adjoint inverse; `mathutils` raises on
a singular matrix, modelled as `none`. -/
def Mat4.inverted (x : Mat4) : Option Mat4 :=
  if x.det = 0 then none else some (Mat4.smul x.det⁻¹ x.adjugate)

/-- Modelled from the spec: `multiW` lives in `tools/utils.py`, which is not
under `src/`. Per the spec (§4.6: the quad geometry is obtained "by
inverting+transposing and projecting 4 corner points" through the 4×4
matrix), it applies the matrix to the point taken homogeneously with `w = 1`,
returning the transformed x/y/z. -/
def multiW (matrix : Mat4) (v : ℚ × ℚ × ℚ) : ℚ × ℚ × ℚ :=
  (matrix.m00 * v.1 + matrix.m01 * v.2.1 + matrix.m02 * v.2.2 + matrix.m03,
   matrix.m10 * v.1 + matrix.m11 * v.2.1 + matrix.m12 * v.2.2 + matrix.m13,
   matrix.m20 * v.1 + matrix.m21 * v.2.1 + matrix.m22 * v.2.2 + matrix.m23)

/-- `WindowCWXMLConverter.get_matrix` (`import_cwxml/window.py:82`): set
`mat[3][3] = 1` on the projection matrix, then transpose and invert. -/
def get_matrix (projection_matrix : Mat4) : Option Mat4 :=
  let mat := { projection_matrix with m33 := 1 }
  mat.transposed.inverted

/-- `WindowCWXMLConverter.get_verts` (`import_cwxml/window.py:68`):
`min = (0, 0, 0)`, `max = (width / 2, height, 1)`, and the four quad corners
are `multiW` of `(min.x, min.y, 0)`, `(min.x, max.y, 0)`, `(max.x, max.y, 0)`,
`(max.x, min.y, 0)`. -/
def get_verts (projection_matrix : Mat4) (width height : ℚ) :
    Option (List (ℚ × ℚ × ℚ)) :=
  (get_matrix projection_matrix).map (fun matrix =>
    let maxx := width / 2
    [multiW matrix (0, 0, 0),
     multiW matrix (0, height, 0),
     multiW matrix (maxx, height, 0),
     multiW matrix (maxx, 0, 0)])

/-- The blend slots that survive the comprehension's filter: pairs of
`zip(blendindices, blendweights)` other than `(bone 0, raw weight 0)`. -/
def kept_blend_slots (blendindices blendweights : List Nat) : List (Nat × Nat) :=
  (blendindices.zip blendweights).filter (fun iw => decide ¬(iw.2 = 0 ∧ iw.1 = 0))

/-- Invariant of the per-shader accumulation: both dicts have unique keys and
every accumulated index is below the accumulated vertex count of its shader. -/
def ShaderAccInv (vs : AList (List SourceVertex)) (ind : AList (List Nat)) : Prop :=
  (vs.map Prod.fst).Nodup ∧ (ind.map Prod.fst).Nodup ∧
  ∀ p ∈ ind, ∀ i ∈ p.2, i < (alGet vs p.1).length

/-- Invariant carried by `join_geometries`' accumulation over shader passes:
index integrity of faces and the parallelism of `material_indices`. -/
def GDInv (gd : GeometryData) : Prop :=
  (∀ f ∈ gd.faces, ∀ i ∈ f, i < gd.vertices.length) ∧
  gd.material_indices.length = gd.faces.length

/-! ## Theorems -/

theorem alGet_extend_same (d : AList (List α)) (k : Nat) (xs : List α) :
    alGet (alExtend d k xs) k = alGet d k ++ xs := by
  induction d with
  | nil => simp [alExtend, alGet]
  | cons hd tl ih =>
    by_cases hk : hd.1 = k
    · simp [alExtend, alGet, hk]
    · simp [alExtend, alGet, hk, ih]

theorem alGet_extend_ne (d : AList (List α)) (k k' : Nat) (xs : List α)
    (h : k' ≠ k) : alGet (alExtend d k xs) k' = alGet d k' := by
  induction d with
  | nil => simp [alExtend, alGet, Ne.symm h]
  | cons hd tl ih =>
    by_cases hk : hd.1 = k
    · have : hd.1 ≠ k' := by rw [hk]; exact Ne.symm h
      simp [alExtend, alGet, hk, this, Ne.symm h]
    · by_cases hk' : hd.1 = k'
      · simp [alExtend, alGet, hk, hk', h]
      · simp [alExtend, alGet, hk, hk', ih]

/-- Extending a dict never introduces a duplicate key. -/
theorem nodup_keys_alExtend (d : AList (List α)) (k : Nat) (xs : List α)
    (hnd : (d.map Prod.fst).Nodup) :
    ((alExtend d k xs).map Prod.fst).Nodup := by
  induction d with
  | nil => simp [alExtend]
  | cons hd tl ih =>
    simp only [List.map_cons, List.nodup_cons] at hnd
    by_cases hk : hd.1 = k
    · simpa [alExtend, hk] using hnd
    · have htl := ih hnd.2
      simp only [alExtend, if_neg hk, List.map_cons, List.nodup_cons]
      refine ⟨?_, htl⟩
      intro hmem
      -- keys of alExtend tl k xs are the keys of tl plus possibly k
      have : hd.1 ∈ tl.map Prod.fst ∨ hd.1 = k := by
        clear ih htl hnd
        induction tl with
        | nil => simpa [alExtend] using hmem
        | cons h2 t2 ih2 =>
          by_cases h2k : h2.1 = k
          · simp only [alExtend, if_pos h2k, List.map_cons, List.mem_cons] at hmem
            rcases hmem with heq | hin
            · right; rw [heq, h2k]
            · left; exact List.mem_cons_of_mem _ hin
          · simp only [alExtend, if_neg h2k, List.map_cons, List.mem_cons] at hmem
            rcases hmem with hmem | hmem
            · simp [hmem]
            · rcases ih2 hmem with hin | heq
              · simp [hin]
              · simp [heq]
      rcases this with hin | heq
      · exact hnd.1 hin
      · exact hk heq

/-- Every binding of `alExtend d k xs` (for a `d` with no duplicate keys) is
either a binding of `d` whose key differs from `k`, or has key `k` and value
`alGet d k ++ xs`. -/
theorem mem_alExtend (d : AList (List α)) (k : Nat) (xs : List α)
    (hnd : (d.map Prod.fst).Nodup)
    (p : Nat × List α) (hp : p ∈ alExtend d k xs) :
    (p ∈ d ∧ p.1 ≠ k) ∨ (p.1 = k ∧ p.2 = alGet d k ++ xs) := by
  induction d with
  | nil =>
    simp only [alExtend, List.mem_singleton] at hp
    right
    simp [hp, alGet]
  | cons hd tl ih =>
    simp only [List.map_cons, List.nodup_cons] at hnd
    by_cases hk : hd.1 = k
    · simp only [alExtend, if_pos hk, List.mem_cons] at hp
      rcases hp with hp | hp
      · right
        simp [hp, alGet, hk]
      · left
        refine ⟨List.mem_cons_of_mem hd hp, ?_⟩
        intro hpk
        exact hnd.1 (hk ▸ hpk ▸ List.mem_map_of_mem Prod.fst hp)
    · simp only [alExtend, if_neg hk, List.mem_cons] at hp
      rcases hp with hp | hp
      · left
        constructor
        · exact hp ▸ List.mem_cons_self hd tl
        · rw [hp]; exact hk
      · rcases ih hnd.2 hp with ⟨hmem, hne⟩ | ⟨hpk, hpv⟩
        · exact Or.inl ⟨List.mem_cons_of_mem hd hmem, hne⟩
        · right
          refine ⟨hpk, ?_⟩
          rw [hpv]
          simp [alGet, hk]


/-- Transposing commutes with the classical-adjoint inverse:
`det` is transpose-invariant and the adjugate of the transpose is the
transpose of the adjugate, entry by entry. -/
theorem inverted_transposed (a : Mat4) :
    a.transposed.inverted = a.inverted.map Mat4.transposed := by
  have hdet : a.transposed.det = a.det := by
    cases a
    simp only [Mat4.det, Mat4.transposed, det3]
    ring
  by_cases h : a.det = 0
  · simp [Mat4.inverted, hdet, h]
  · simp only [Mat4.inverted, hdet, if_neg h, Option.map_some]
    congr 1
    cases a
    simp only [Mat4.adjugate, Mat4.smul, Mat4.transposed, Mat4.mk.injEq, det3]
    and_intros <;> ring

/-- C9: For every 4×4 matrix `T` and position offset `p`, the export-side
child-transform correction (`create_physics_child_transforms`: transpose, then
subtract `p` from the row-3 translation entries) undoes the import-side
correction (`get_child_transform`: add `p` to the row-3 translation entries of
`T`, then transpose), over exact arithmetic. -/
theorem export_import_child_transform_round_trip (t : Mat4) (p : ℚ × ℚ × ℚ) :
    create_physics_child_transforms (get_child_transform t p) p = t := by
  cases t
  simp only [create_physics_child_transforms, get_child_transform,
    Mat4.transposed, Mat4.mk.injEq]
  and_intros <;> ring

/-- C3 counterexample: at the zero stored matrix and position offset
`(1, 0, 0)`, the import correction implemented by `get_child_transform`
(which ADDS the offset) differs from the claimed correction
`get_child_transform_claimed` (which subtracts it): entry `[0][3]` of the
applied matrix is `1`, not `-1`. -/
theorem get_child_transform_counterexample :
    get_child_transform ⟨0, 0, 0, 0, 0, 0, 0, 0, 0, 0, 0, 0, 0, 0, 0, 0⟩ (1, 0, 0) ≠
      get_child_transform_claimed ⟨0, 0, 0, 0, 0, 0, 0, 0, 0, 0, 0, 0, 0, 0, 0, 0⟩ (1, 0, 0) := by
  intro h
  have h3 := congrArg Mat4.m03 h
  simp only [get_child_transform, get_child_transform_claimed, Mat4.transposed] at h3
  norm_num at h3

/-- C3 (amended): for every physics child with a stored transform matrix, the
matrix applied at import equals the stored matrix with the owning LOD's
`position_offset` ADDED to its translation components (row 3), and then
transposed — equivalently, the transpose of the stored matrix with the offset
added at the fourth-column entries `[0][3]`, `[1][3]`, `[2][3]`. -/
theorem get_child_transform_amended (t : Mat4) (p : ℚ × ℚ × ℚ) :
    get_child_transform t p =
      { t.transposed with
          m03 := t.m30 + p.1
          m13 := t.m31 + p.2.1
          m23 := t.m32 + p.2.2 } := by
  cases t
  rfl

/-- C5 counterexample: for a window of width 2.0, height 1.0 and the identity
projection matrix, the claim predicts the quad corners
`(0,0,0), (0,1,0), (2,1,0), (2,0,0)` (corner points at `(w, h)` and `(w, 0)`),
but `get_verts` produces x-extent `width / 2 = 1`, not `width = 2`. -/
theorem get_verts_counterexample :
    get_verts Mat4.identity 2 1 ≠
      some [(0, 0, 0), (0, 1, 0), (2, 1, 0), (2, 0, 0)] := by
  have hv : get_verts Mat4.identity 2 1 =
      some [(0, 0, 0), (0, 1, 0), (1, 1, 0), (1, 0, 0)] := by
    norm_num [get_verts, get_matrix, Mat4.identity, Mat4.transposed,
      Mat4.inverted, Mat4.det, det3, Mat4.adjugate, Mat4.smul, multiW]
  rw [hv]
  intro h
  have h2 := Option.some.inj h
  have h3 := congrArg (fun l => (l.getD 2 (0, 0, 0)).1) h2
  norm_num at h3

/-- C5 (amended): for every window, the 4 quad corner vertices are the
projections, through the window's 4×4 projection matrix (with entry `[3][3]`
set to 1) inverted and then transposed, of the corner points
`(0,0), (0,h), (w/2,h), (w/2,0)` where `w` and `h` are the declared width and
height; in particular for width 2.0, height 1.0 and the identity projection
matrix the corners are exactly `(0,0,0), (0,1,0), (1,1,0), (1,0,0)`. -/
theorem get_verts_amended :
    (∀ (m : Mat4) (width height : ℚ),
        get_verts m width height =
          (Mat4.inverted { m with m33 := 1 }).map (fun inv =>
            [multiW inv.transposed (0, 0, 0),
             multiW inv.transposed (0, height, 0),
             multiW inv.transposed (width / 2, height, 0),
             multiW inv.transposed (width / 2, 0, 0)])) ∧
      get_verts Mat4.identity 2 1 =
        some [(0, 0, 0), (0, 1, 0), (1, 1, 0), (1, 0, 0)] := by
  constructor
  · intro m width height
    simp only [get_verts, get_matrix, inverted_transposed, Option.map_map]
    rfl
  · norm_num [get_verts, get_matrix, Mat4.identity, Mat4.transposed,
      Mat4.inverted, Mat4.det, det3, Mat4.adjugate, Mat4.smul, multiW]

/-- C4: parent resolution for a physics group: the sentinel 255 always yields
the LOD root with no warning (for EVERY groups list, so position 255 of the
list is never consulted); a non-sentinel index resolving to an already-built
group yields that group with no warning; a non-sentinel index not in the list
yields the LOD root with the warning flag set. The function is total:
it never raises. -/
theorem get_physics_group_parent_spec {α : Type} (groups : List α)
    (lod_root : α) (parent_index : Nat) :
    (parent_index = 255 →
      get_physics_group_parent groups lod_root parent_index = (lod_root, false)) ∧
    (parent_index ≠ 255 → ∀ parent, get_list_item groups parent_index = some parent →
      get_physics_group_parent groups lod_root parent_index = (parent, false)) ∧
    (parent_index ≠ 255 → get_list_item groups parent_index = none →
      get_physics_group_parent groups lod_root parent_index = (lod_root, true)) := by
  refine ⟨fun h => ?_, fun h parent hp => ?_, fun h hp => ?_⟩
  · simp [get_physics_group_parent, h]
  · simp [get_physics_group_parent, h, hp]
  · simp [get_physics_group_parent, h, hp]

/-- Witness for C4: a 2-group list; sentinel 255 gives the root, index 1 gives
group 20, out-of-range index 7 gives the root plus a warning. -/
theorem get_physics_group_parent_spec_witness :
    get_physics_group_parent [10, 20] 99 255 = (99, false) ∧
    get_physics_group_parent [10, 20] 99 1 = (20, false) ∧
    get_physics_group_parent [10, 20] 99 7 = (99, true) :=
  ⟨(get_physics_group_parent_spec [10, 20] 99 255).1 rfl,
   (get_physics_group_parent_spec [10, 20] 99 1).2.1 (by decide) 20 (by decide),
   (get_physics_group_parent_spec [10, 20] 99 7).2.2 (by decide) (by decide)⟩

/-- C7 counterexample: on the 4-element input `[0, 1, 2, 3]` (length not a
multiple of 3), `split_indices` silently produces the short trailing chunk
`[3]` instead of signalling an error. -/
theorem split_indices_counterexample :
    split_indices [0, 1, 2, 3] = [[0, 1, 2], [3]] ∧
      ¬(([3] : List Nat).length = 3) := by
  decide

/-- Concatenating the chunks of `split_indices` restores the input. -/
theorem split_indices_join (l : List Nat) : (split_indices l).flatten = l := by
  match l with
  | [] => rfl
  | [a] => rfl
  | [a, b] => rfl
  | a :: b :: c :: rest =>
    simp only [split_indices, List.flatten]
    rw [split_indices_join rest]
    rfl

/-- Every chunk of `split_indices` is non-empty and has at most 3 entries,
and when the input length is a multiple of 3 every chunk has exactly 3. -/
theorem split_indices_chunk_length (l : List Nat) (c : List Nat)
    (hc : c ∈ split_indices l) :
    c ≠ [] ∧ c.length ≤ 3 ∧ (l.length % 3 = 0 → c.length = 3) := by
  match l with
  | [] => simp [split_indices] at hc
  | [a] =>
    simp only [split_indices, List.mem_singleton] at hc
    simp [hc]
  | [a, b] =>
    simp only [split_indices, List.mem_singleton] at hc
    simp [hc]
  | a :: b :: c' :: rest =>
    simp only [split_indices, List.mem_cons] at hc
    rcases hc with hc | hc
    · simp [hc]
    · have ih := split_indices_chunk_length rest c hc
      refine ⟨ih.1, ih.2.1, fun hmod => ih.2.2 ?_⟩
      simp only [List.length_cons] at hmod
      omega

/-- C7 (amended): `split_indices` maps every flat index list whose length is a
multiple of 3 to the sequence of consecutive disjoint triples in input order
(chunks of exactly 3 whose concatenation is the input); for an input whose
length is NOT a multiple of 3 it does not signal an error — it produces the
same chunking with a silently truncated final chunk of fewer than 3 entries
(the chunks still concatenate to the input and none exceeds 3 entries). -/
theorem split_indices_spec (l : List Nat) :
    (split_indices l).flatten = l ∧
    (∀ c ∈ split_indices l, c ≠ [] ∧ c.length ≤ 3) ∧
    (l.length % 3 = 0 → ∀ c ∈ split_indices l, c.length = 3) := by
  refine ⟨split_indices_join l, fun c hc => ?_, fun hmod c hc => ?_⟩
  · exact ⟨(split_indices_chunk_length l c hc).1, (split_indices_chunk_length l c hc).2.1⟩
  · exact (split_indices_chunk_length l c hc).2.2 hmod

/-- Witness for C7: the 6-element list `[0, 1, 2, 3, 4, 5]` splits into the
two triples `[0, 1, 2]` and `[3, 4, 5]`. -/
theorem split_indices_spec_witness :
    (split_indices [0, 1, 2, 3, 4, 5]).flatten = [0, 1, 2, 3, 4, 5] ∧
      ([0, 1, 2] : List Nat).length = 3 :=
  ⟨(split_indices_spec [0, 1, 2, 3, 4, 5]).1,
   (split_indices_spec [0, 1, 2, 3, 4, 5]).2.2 (by decide) [0, 1, 2] (by decide)⟩

/-- C2: the group name created for every bone-index key of a `GeometryData`'s
`vertex_groups` follows the three-tier policy: the skeleton bone's name when
the skeleton list is non-empty and the index is in range; else
`"EXTERNAL_BONE.<index>"` when the external bone-id list is non-empty and the
index is in range; else `"UNKNOWN_BONE"`. In particular bone index 7 with a
5-bone skeleton and a 10-entry external-bone-id list resolves to
`"EXTERNAL_BONE.7"`. -/
theorem create_vertex_groups_policy :
    (∀ (bones : List String) (bone_ids : List Nat) (keys : List Nat)
        (i : Nat), i < keys.length →
      ((bones ≠ [] ∧ keys.getD i 0 < bones.length →
          (create_vertex_groups keys bones bone_ids).getD i "" =
            bones.getD (keys.getD i 0) "") ∧
       (¬(bones ≠ [] ∧ keys.getD i 0 < bones.length) →
          bone_ids ≠ [] ∧ keys.getD i 0 < bone_ids.length →
          (create_vertex_groups keys bones bone_ids).getD i "" =
            "EXTERNAL_BONE." ++ toString (keys.getD i 0)) ∧
       (¬(bones ≠ [] ∧ keys.getD i 0 < bones.length) →
          ¬(bone_ids ≠ [] ∧ keys.getD i 0 < bone_ids.length) →
          (create_vertex_groups keys bones bone_ids).getD i "" = "UNKNOWN_BONE"))) ∧
    create_vertex_groups [7] ["a", "b", "c", "d", "e"]
      [10, 11, 12, 13, 14, 15, 16, 17, 18, 19] = ["EXTERNAL_BONE.7"] := by
  constructor
  · intro bones bone_ids keys i hi
    have hmap : (create_vertex_groups keys bones bone_ids).getD i "" =
        bone_group_name bones bone_ids (keys.getD i 0) := by
      unfold create_vertex_groups
      rw [List.getD_eq_getElem?_getD, List.getElem?_map,
        List.getElem?_eq_getElem hi]
      simp [List.getD_eq_getElem?_getD, List.getElem?_eq_getElem hi]
    refine ⟨fun h1 => ?_, fun h1 h2 => ?_, fun h1 h2 => ?_⟩
    · rw [hmap, bone_group_name, if_pos h1]
    · rw [hmap, bone_group_name, if_neg h1, if_pos h2]
    · rw [hmap, bone_group_name, if_neg h1, if_neg h2]
  · rfl

/-- Witness for C2: instantiates the policy at bone index 7, a 5-name
skeleton and a 10-entry external-id list, landing in the second tier. -/
theorem create_vertex_groups_policy_witness :
    (create_vertex_groups [7] ["a", "b", "c", "d", "e"]
        [10, 11, 12, 13, 14, 15, 16, 17, 18, 19]).getD 0 "" =
      "EXTERNAL_BONE." ++ toString (([7] : List Nat).getD 0 0) :=
  ((create_vertex_groups_policy.1 ["a", "b", "c", "d", "e"]
      [10, 11, 12, 13, 14, 15, 16, 17, 18, 19] [7] 0 (by decide)).2.1
    (by decide) (by decide))

/-- Soundness of the fuelled parent-chain walk: when every bone's parent index
is strictly below its own position, any start index below the length reaches,
within any fuel exceeding the start index, a bone whose parent index is ≤ 0. -/
theorem root_bone_loop_sound (bones : List Int)
    (hpb : ∀ j, j < bones.length → bones.getD j 0 < (j : Int)) :
    ∀ i, i < bones.length → ∀ fuel, i < fuel →
      ∃ r, root_bone_loop bones fuel i = some r ∧ r < bones.length ∧
        bones.getD r 0 ≤ 0 := by
  intro i
  induction i using Nat.strong_induction_on with
  | _ i ih =>
    intro hi fuel hfuel
    match fuel, hfuel with
    | fuel + 1, _ =>
      have hget : bones[i]? = some (bones.getD i 0) := by
        rw [List.getElem?_eq_getElem hi, List.getD_eq_getElem?_getD,
          List.getElem?_eq_getElem hi]
        rfl
      by_cases hp : bones.getD i 0 > 0
      · have hplt : bones.getD i 0 < (i : Int) := hpb i hi
        have htn : (bones.getD i 0).toNat < i := by omega
        have hlen : (bones.getD i 0).toNat < bones.length := by omega
        have hfuel2 : (bones.getD i 0).toNat < fuel := by omega
        obtain ⟨r, hr, hrlen, hrpar⟩ := ih _ htn hlen fuel hfuel2
        refine ⟨r, ?_, hrlen, hrpar⟩
        simp only [root_bone_loop, hget, if_pos hp]
        exact hr
      · refine ⟨i, ?_, hi, by omega⟩
        simp only [root_bone_loop, hget, if_neg hp]

/-- C10: under the parent-before-child precondition (every bone's
`parent_index` strictly below its own array position), the parent-chain walk
of `get_root_bone_parent_index` terminates for every valid start index and
returns the index of a bone whose `parent_index` is ≤ 0. -/
theorem get_root_bone_parent_index_terminates (bones : List Int)
    (hpb : ∀ j, j < bones.length → bones.getD j 0 < (j : Int))
    (i : Nat) (hi : i < bones.length) :
    ∃ r, get_root_bone_parent_index bones i = some r ∧ r < bones.length ∧
      bones.getD r 0 ≤ 0 :=
  root_bone_loop_sound bones hpb i hi (bones.length + 1) (by omega)

/-- Witness for C10: a 3-bone skeleton `[-1, 0, 1]` (root, a child of the
root, a grandchild); the walk from bone 2 terminates. -/
theorem get_root_bone_parent_index_terminates_witness :
    ∃ r, get_root_bone_parent_index [-1, 0, 1] 2 = some r ∧
      r < ([-1, 0, 1] : List Int).length ∧ ([-1, 0, 1] : List Int).getD r 0 ≤ 0 :=
  get_root_bone_parent_index_terminates [-1, 0, 1]
    (by
      intro j hj
      simp only [List.length_cons, List.length_nil] at hj
      interval_cases j <;> decide) 2 (by decide)

/-- When every remaining bone's root-parent equals `r0` and the loop state
carries `last = r0`, the loop finishes returning `r0` (the last iteration's
`root_parent_index`). -/
theorem common_root_loop_all_eq (bones : List Int) (r0 : Nat) (rest : List Nat)
    (hall : ∀ b ∈ rest, get_root_bone_parent_index bones b = some r0) :
    common_root_loop bones (r0 : Int) (some r0) rest = some r0 := by
  induction rest with
  | nil => rfl
  | cons b t ih =>
    have hb := hall b (List.mem_cons_self b t)
    have h1 : ¬((r0 : Int) = -1) := by omega
    have h2 : ¬((r0 : Int) ≠ (r0 : Int)) := by simp
    simp only [common_root_loop, hb]
    rw [if_neg h1, if_neg h2]
    exact ih (fun c hc => hall c (List.mem_cons_of_mem _ hc))

/-- When some remaining bone's root-parent differs from the carried `last = r0`
(and every remaining bone's walk succeeds), the loop returns 0. -/
theorem common_root_loop_mismatch (bones : List Int) (r0 : Nat) (rest : List Nat)
    (hsome : ∀ b ∈ rest, ∃ r, get_root_bone_parent_index bones b = some r)
    (hex : ∃ b ∈ rest, get_root_bone_parent_index bones b ≠ some r0) :
    common_root_loop bones (r0 : Int) (some r0) rest = some 0 := by
  induction rest with
  | nil => simp at hex
  | cons b t ih =>
    obtain ⟨rb, hrb⟩ := hsome b (List.mem_cons_self b t)
    have h1 : ¬((r0 : Int) = -1) := by omega
    by_cases hbr : rb = r0
    · rw [hbr] at hrb
      simp only [common_root_loop, hrb]
      have h2 : ¬((r0 : Int) ≠ (r0 : Int)) := by simp
      rw [if_neg h1, if_neg h2]
      refine ih (fun c hc => hsome c (List.mem_cons_of_mem _ hc)) ?_
      obtain ⟨c, hc, hcne⟩ := hex
      rcases List.mem_cons.mp hc with hceq | hct
      · rw [hceq] at hcne
        exact absurd hrb hcne
      · exact ⟨c, hct, hcne⟩
    · simp only [common_root_loop, hrb]
      have h2 : (r0 : Int) ≠ (rb : Int) := by
        intro hcontra
        exact hbr (by omega)
      rw [if_neg h1, if_pos h2]

/-- C6: over a skeleton listed parent-before-child, for every non-empty list
of valid bone indices: when all listed bones share the same
direct-root-child ancestor (the result of `get_root_bone_parent_index`),
`find_common_root_bone_parent` returns that ancestor's index (the first
bone's root-parent); when any two listed bones' root-parents differ, it
returns 0, the root bone index. -/
theorem find_common_root_bone_parent_spec (bones : List Int) (l : List Nat)
    (hne : l ≠ [])
    (hval : ∀ b ∈ l, b < bones.length)
    (hpb : ∀ j, j < bones.length → bones.getD j 0 < (j : Int)) :
    ((∀ a ∈ l, ∀ b ∈ l,
        get_root_bone_parent_index bones a = get_root_bone_parent_index bones b) →
      find_common_root_bone_parent l bones =
        get_root_bone_parent_index bones (l.headD 0)) ∧
    ((∃ a ∈ l, ∃ b ∈ l,
        get_root_bone_parent_index bones a ≠ get_root_bone_parent_index bones b) →
      find_common_root_bone_parent l bones = some 0) := by
  match l, hne with
  | h :: t, _ =>
    obtain ⟨r0, hr0, -, -⟩ :=
      get_root_bone_parent_index_terminates bones hpb h
        (hval h (List.mem_cons_self h t))
    have hsome : ∀ b ∈ t, ∃ r, get_root_bone_parent_index bones b = some r := by
      intro b hb
      obtain ⟨r, hr, -, -⟩ :=
        get_root_bone_parent_index_terminates bones hpb b
          (hval b (List.mem_cons_of_mem _ hb))
      exact ⟨r, hr⟩
    have hstart : find_common_root_bone_parent (h :: t) bones =
        common_root_loop bones (r0 : Int) (some r0) t := by
      simp only [find_common_root_bone_parent, common_root_loop, hr0]
      simp
    constructor
    · intro hall
      have ht : ∀ b ∈ t, get_root_bone_parent_index bones b = some r0 := by
        intro b hb
        rw [hall b (List.mem_cons_of_mem _ hb) h (List.mem_cons_self h t)]
        exact hr0
      rw [hstart, common_root_loop_all_eq bones r0 t ht]
      simp [hr0]
    · intro hex
      rw [hstart]
      refine common_root_loop_mismatch bones r0 t hsome ?_
      by_contra hcon
      push_neg at hcon
      have hallr : ∀ a ∈ h :: t,
          get_root_bone_parent_index bones a = some r0 := by
        intro a ha
        rcases List.mem_cons.mp ha with haeq | hat
        · rw [haeq]; exact hr0
        · exact hcon a hat
      obtain ⟨a, ha, b, hb, hab⟩ := hex
      rw [hallr a ha, hallr b hb] at hab
      exact hab rfl
  | [], hne => exact absurd rfl hne

/-- Witness for C6: skeleton `[-1, 0, 0, 1, 2]` (root, two direct children,
and one grandchild under each). Bones 3 and 1 share root-parent 1, so the
common parent is 1; bones 3 and 4 have root-parents 1 and 2, so the result
falls back to the root, index 0. -/
theorem find_common_root_bone_parent_spec_witness :
    find_common_root_bone_parent [3, 1] [-1, 0, 0, 1, 2] =
      get_root_bone_parent_index [-1, 0, 0, 1, 2] 3 ∧
    find_common_root_bone_parent [3, 4] [-1, 0, 0, 1, 2] = some 0 := by
  have hpb : ∀ j, j < ([-1, 0, 0, 1, 2] : List Int).length →
      ([-1, 0, 0, 1, 2] : List Int).getD j 0 < (j : Int) := by
    intro j hj
    simp only [List.length_cons, List.length_nil] at hj
    interval_cases j <;> decide
  constructor
  · have := (find_common_root_bone_parent_spec [-1, 0, 0, 1, 2] [3, 1]
      (by decide) (by decide) hpb).1 (by decide)
    simpa using this
  · exact (find_common_root_bone_parent_spec [-1, 0, 0, 1, 2] [3, 4]
      (by decide) (by decide) hpb).2 (by decide)

/-- Inserting a key not present in the dict appends the binding. -/
theorem dictInsert_append (d : List (Nat × ℚ)) (k : Nat) (v : ℚ)
    (h : ∀ kv ∈ d, kv.1 ≠ k) : dictInsert d k v = d ++ [(k, v)] := by
  induction d with
  | nil => rfl
  | cons hd tl ih =>
    have hne : hd.1 ≠ k := h hd (List.mem_cons_self hd tl)
    simp only [dictInsert, if_neg hne, List.cons_append, List.cons.injEq, true_and]
    exact ih (fun kv hkv => h kv (List.mem_cons_of_mem _ hkv))

/-- The weight-dict fold, when the surviving slots' bone indices (together
with the accumulator's keys) are pairwise distinct, appends one binding
`(bone_index, weight / 255)` per surviving slot, in slot order. -/
theorem blend_fold_nodup (pairs : List (Nat × Nat)) (acc : List (Nat × ℚ))
    (hnd : (acc.map Prod.fst ++
        (pairs.filter (fun iw => decide ¬(iw.2 = 0 ∧ iw.1 = 0))).map Prod.fst).Nodup) :
    pairs.foldl
        (fun d iw =>
          if iw.2 = 0 ∧ iw.1 = 0 then d else dictInsert d iw.1 ((iw.2 : ℚ) / 255))
        acc =
      acc ++ (pairs.filter (fun iw => decide ¬(iw.2 = 0 ∧ iw.1 = 0))).map
        (fun iw => (iw.1, (iw.2 : ℚ) / 255)) := by
  induction pairs generalizing acc with
  | nil => simp
  | cons iw t ih =>
    by_cases hs : iw.2 = 0 ∧ iw.1 = 0
    · have hfilter : (iw :: t).filter (fun iw => decide ¬(iw.2 = 0 ∧ iw.1 = 0)) =
          t.filter (fun iw => decide ¬(iw.2 = 0 ∧ iw.1 = 0)) := by
        simp [List.filter, hs]
      simp only [List.foldl_cons, if_pos hs]
      rw [hfilter] at hnd
      rw [ih acc hnd, hfilter]
    · have hfilter : (iw :: t).filter (fun iw => decide ¬(iw.2 = 0 ∧ iw.1 = 0)) =
          iw :: t.filter (fun iw => decide ¬(iw.2 = 0 ∧ iw.1 = 0)) := by
        simp [List.filter, hs]
      rw [hfilter] at hnd
      simp only [List.map_cons] at hnd
      have hnotin : iw.1 ∉ acc.map Prod.fst := by
        have hdisj := (List.nodup_append.mp hnd).2.2
        intro hcon
        exact hdisj hcon (List.mem_cons_self _ _)
      have hins : dictInsert acc iw.1 ((iw.2 : ℚ) / 255) =
          acc ++ [(iw.1, (iw.2 : ℚ) / 255)] := by
        refine dictInsert_append acc iw.1 _ (fun kv hkv hkeq => ?_)
        exact hnotin (hkeq ▸ List.mem_map_of_mem Prod.fst hkv)
      simp only [List.foldl_cons, if_neg hs, hins]
      have hnd2 : ((acc ++ [(iw.1, (iw.2 : ℚ) / 255)]).map Prod.fst ++
          (t.filter (fun iw => decide ¬(iw.2 = 0 ∧ iw.1 = 0))).map Prod.fst).Nodup := by
        simpa [List.map_append] using hnd
      rw [ih _ hnd2, hfilter]
      simp

/-- C8 counterexample: the vertex with `blendindices = (1, 1, 0, 0)` and
`blendweights = (255, 0, 0, 0)` has the slot `(bone 1, raw 255)`, which the
claim says is kept with weight `255 / 255 = 1`; but the weights dict is keyed
by bone index, so the later slot `(bone 1, raw 0)` overwrites it and the
final map is `{1: 0}`. -/
theorem from_vertex_weights_counterexample :
    (VertexAttributes.from_vertex
        ⟨(0, 0, 0), none, some ([1, 1, 0, 0], [255, 0, 0, 0]), [], []⟩).weights =
      [(1, 0)] ∧
    ¬((1, (255 : ℚ) / 255) ∈
      (VertexAttributes.from_vertex
        ⟨(0, 0, 0), none, some ([1, 1, 0, 0], [255, 0, 0, 0]), [], []⟩).weights) := by
  have h : (VertexAttributes.from_vertex
      ⟨(0, 0, 0), none, some ([1, 1, 0, 0], [255, 0, 0, 0]), [], []⟩).weights =
      [(1, 0)] := by
    norm_num [VertexAttributes.from_vertex, blend_weights_dict, dictInsert,
      List.zip, List.zipWith]
  refine ⟨h, ?_⟩
  rw [h]
  intro hmem
  simp only [List.mem_singleton, Prod.mk.injEq] at hmem
  norm_num at hmem

/-- C8 (amended): for every vertex record carrying blend weights WHOSE
SURVIVING SLOTS HAVE PAIRWISE DISTINCT BONE INDICES, `from_vertex` produces a
weight map assigning to each slot the value `raw_byte_weight / 255`, omitting
exactly those slots whose raw weight is 0 and whose bone index is also 0: a
slot with bone index 0 and nonzero weight is kept, and a slot with nonzero
bone index and raw weight 0 is kept with weight 0. (When two surviving slots
share a bone index, the later slot's weight overwrites the earlier one, since
the map is keyed by bone index.) -/
theorem from_vertex_weights_amended (pos : ℚ × ℚ × ℚ) (nrm : Option (ℚ × ℚ × ℚ))
    (tex : List (ℚ × ℚ)) (col : List (ℚ × ℚ × ℚ × ℚ)) (bi bw : List Nat)
    (hnd : ((kept_blend_slots bi bw).map Prod.fst).Nodup) :
    (VertexAttributes.from_vertex ⟨pos, nrm, some (bi, bw), tex, col⟩).weights =
      (kept_blend_slots bi bw).map (fun iw => (iw.1, (iw.2 : ℚ) / 255)) ∧
    (∀ iw ∈ bi.zip bw, ¬(iw.2 = 0 ∧ iw.1 = 0) →
      (iw.1, (iw.2 : ℚ) / 255) ∈
        (VertexAttributes.from_vertex ⟨pos, nrm, some (bi, bw), tex, col⟩).weights) ∧
    (∀ p ∈ (VertexAttributes.from_vertex ⟨pos, nrm, some (bi, bw), tex, col⟩).weights,
      ∃ iw ∈ bi.zip bw, ¬(iw.2 = 0 ∧ iw.1 = 0) ∧ p = (iw.1, (iw.2 : ℚ) / 255)) := by
  have hmain : (VertexAttributes.from_vertex ⟨pos, nrm, some (bi, bw), tex, col⟩).weights =
      (kept_blend_slots bi bw).map (fun iw => (iw.1, (iw.2 : ℚ) / 255)) := by
    have := blend_fold_nodup (bi.zip bw) [] (by simpa [kept_blend_slots] using hnd)
    simpa [VertexAttributes.from_vertex, blend_weights_dict, kept_blend_slots] using this
  refine ⟨hmain, fun iw hiw hkeep => ?_, fun p hp => ?_⟩
  · rw [hmain]
    refine List.mem_map_of_mem _ ?_
    simp only [kept_blend_slots, List.mem_filter, decide_eq_true_eq]
    exact ⟨hiw, hkeep⟩
  · rw [hmain] at hp
    obtain ⟨iw, hiw, hpeq⟩ := List.mem_map.mp hp
    simp only [kept_blend_slots, List.mem_filter, decide_eq_true_eq] at hiw
    exact ⟨iw, hiw.1, hiw.2, hpeq.symm⟩

/-- Witness for C8 (amended): slots `(3,10), (0,20), (2,0), (0,0)` — distinct
surviving bone indices; the map keeps `(0, 20/255)` (bone 0, nonzero weight)
and `(2, 0)` (nonzero bone, zero weight) and drops only `(0, 0)`. -/
theorem from_vertex_weights_amended_witness :
    (VertexAttributes.from_vertex
        ⟨(0, 0, 0), none, some ([3, 0, 2, 0], [10, 20, 0, 0]), [], []⟩).weights =
      (kept_blend_slots [3, 0, 2, 0] [10, 20, 0, 0]).map
        (fun iw => (iw.1, (iw.2 : ℚ) / 255)) :=
  (from_vertex_weights_amended (0, 0, 0) none [] [] [3, 0, 2, 0] [10, 20, 0, 0]
    (by decide)).1

/-- Every element of a chunk of `split_indices l` is an element of `l`. -/
theorem split_indices_chunk_subset (l : List Nat) (c : List Nat)
    (hc : c ∈ split_indices l) (x : Nat) (hx : x ∈ c) : x ∈ l := by
  rw [← split_indices_join l]
  exact List.mem_flatten.mpr ⟨c, hc, hx⟩

/-- `alGet` either defaults to `[]` or returns the value of an actual
binding. -/
theorem alGet_nil_or_mem (d : AList (List α)) (k : Nat) :
    alGet d k = [] ∨ (k, alGet d k) ∈ d := by
  induction d with
  | nil => left; rfl
  | cons hd tl ih =>
    by_cases hk : hd.1 = k
    · right
      simp only [alGet, if_pos hk]
      rw [← hk]
      exact List.mem_cons_self hd tl
    · rcases ih with hnil | hmem
      · left
        simpa [alGet, hk] using hnil
      · right
        simp only [alGet, if_neg hk]
        exact List.mem_cons_of_mem _ hmem

/-- The second component of an `enum` entry is an element of the list. -/
theorem mem_enum_snd {l : List β} {p : Nat × β} (hp : p ∈ l.enum) : p.2 ∈ l := by
  have := List.mem_map_of_mem Prod.snd hp
  rwa [List.enum_map_snd] at this

/-- One `gvd_step` preserves the accumulation invariant, for any loop
position `n`, provided the incoming block's indices are below its own vertex
count. -/
theorem gvd_step_inv (vs : AList (List SourceVertex)) (ind : AList (List Nat))
    (n : Nat) (g : GeometryItem)
    (hacc : ShaderAccInv vs ind)
    (hg : ∀ i ∈ g.index_data, i < g.vertex_data.length) :
    ShaderAccInv (gvd_step (vs, ind) n g).1 (gvd_step (vs, ind) n g).2 := by
  obtain ⟨hvs, hind, hbound⟩ := hacc
  refine ⟨nodup_keys_alExtend vs _ _ hvs, nodup_keys_alExtend ind _ _ hind, ?_⟩
  intro p hp i hi
  rcases mem_alExtend ind g.shader_index _ hind p hp with ⟨hmem, hne⟩ | ⟨hkey, hval⟩
  · rw [show (gvd_step (vs, ind) n g).1 = alExtend vs g.shader_index g.vertex_data
        from rfl, alGet_extend_ne vs _ _ _ hne]
    exact hbound p hmem i hi
  · rw [show (gvd_step (vs, ind) n g).1 = alExtend vs g.shader_index g.vertex_data
        from rfl, hkey, alGet_extend_same]
    rw [hval] at hi
    rcases List.mem_append.mp hi with hold | hnew
    · have hlt : i < (alGet vs g.shader_index).length := by
        rcases alGet_nil_or_mem ind g.shader_index with hnil | hmem2
        · rw [hnil] at hold
          simp at hold
        · exact hbound _ hmem2 i hold
      calc i < (alGet vs g.shader_index).length := hlt
        _ ≤ (alGet vs g.shader_index).length + g.vertex_data.length := Nat.le_add_right _ _
        _ = (alGet vs g.shader_index ++ g.vertex_data).length := (List.length_append _ _).symm
    · by_cases hn : n > 0
      · simp only [gvd_step, if_pos hn] at hnew
        obtain ⟨y, hy, hyeq⟩ := List.mem_map.mp hnew
        have : y < g.vertex_data.length := hg y hy
        rw [← hyeq, List.length_append]
        omega
      · simp only [gvd_step, if_neg hn] at hnew
        have : i < g.vertex_data.length := hg i hnew
        rw [List.length_append]
        omega

/-- The whole per-shader accumulation fold preserves the invariant. -/
theorem gvd_fold_inv (l : List (Nat × GeometryItem))
    (hl : ∀ p ∈ l, ∀ i ∈ p.2.index_data, i < p.2.vertex_data.length) :
    ∀ (acc : AList (List SourceVertex) × AList (List Nat)),
      ShaderAccInv acc.1 acc.2 →
      ShaderAccInv ((l.foldl (fun acc gi => gvd_step acc gi.1 gi.2) acc)).1
        ((l.foldl (fun acc gi => gvd_step acc gi.1 gi.2) acc)).2 := by
  induction l with
  | nil => exact fun acc h => h
  | cons hd tl ih =>
    intro acc hacc
    simp only [List.foldl_cons]
    refine ih (fun p hp => hl p (List.mem_cons_of_mem _ hp)) _ ?_
    have := gvd_step_inv acc.1 acc.2 hd.1 hd.2 hacc
      (hl hd (List.mem_cons_self hd tl))
    simpa using this

/-- The two dicts produced by `get_vertex_data_by_shader_index` satisfy the
accumulation invariant whenever every block's indices are below its own
vertex count. -/
theorem get_vertex_data_by_shader_index_inv (geometries : List GeometryItem)
    (h : ∀ g ∈ geometries, ∀ i ∈ g.index_data, i < g.vertex_data.length) :
    ShaderAccInv (get_vertex_data_by_shader_index geometries).1
      (get_vertex_data_by_shader_index geometries).2 := by
  refine gvd_fold_inv geometries.enum
    (fun p hp => h p.2 (mem_enum_snd hp)) ([], [])
    ⟨List.nodup_nil, List.nodup_nil, by simp⟩

/-- Folding `add_vertex` over a vertex list leaves faces and material indices
untouched and grows the vertex array by exactly the list length. -/
theorem fold_add_vertex (vl : List SourceVertex) (gd : GeometryData) :
    (vl.foldl (fun acc v => acc.add_vertex (VertexAttributes.from_vertex v)) gd).faces
        = gd.faces ∧
    (vl.foldl (fun acc v => acc.add_vertex (VertexAttributes.from_vertex v)) gd).material_indices
        = gd.material_indices ∧
    (vl.foldl (fun acc v => acc.add_vertex (VertexAttributes.from_vertex v)) gd).vertices.length
        = gd.vertices.length + vl.length := by
  induction vl generalizing gd with
  | nil => simp
  | cons v t ih =>
    simp only [List.foldl_cons]
    obtain ⟨h1, h2, h3⟩ := ih (gd.add_vertex (VertexAttributes.from_vertex v))
    refine ⟨h1, h2, ?_⟩
    rw [h3]
    simp only [GeometryData.add_vertex, List.length_append, List.length_cons,
      List.length_nil, List.length_cons]
    omega

/-- One `join_pass` preserves `GDInv`, appends exactly one copy of the pass's
shader index per face chunk to `material_indices`, and never shrinks the
vertex array. -/
theorem join_pass_spec (vs : AList (List SourceVertex)) (gd : GeometryData)
    (s : Nat) (indices : List Nat)
    (hbound : ∀ i ∈ indices, i < (alGet vs s).length)
    (hinv : GDInv gd) :
    GDInv (join_pass vs gd s indices) ∧
    (join_pass vs gd s indices).material_indices =
      gd.material_indices ++ List.replicate (split_indices indices).length s ∧
    gd.vertices.length ≤ (join_pass vs gd s indices).vertices.length := by
  obtain ⟨hfaces, hlen⟩ := hinv
  obtain ⟨h1, h2, h3⟩ := fold_add_vertex (alGet vs s)
    { gd with
      faces := gd.faces ++
        (split_indices indices).map (fun face => face.map (· + gd.vertices.length))
      material_indices :=
        gd.material_indices ++ List.replicate (split_indices indices).length s }
  simp only [join_pass, GDInv]
  rw [h1, h2, h3]
  dsimp only
  refine ⟨⟨?_, ?_⟩, rfl, ?_⟩
  · intro f hf i hi
    rcases List.mem_append.mp hf with hold | hnew
    · have := hfaces f hold i hi
      omega
    · obtain ⟨c, hc, hceq⟩ := List.mem_map.mp hnew
      rw [← hceq] at hi
      obtain ⟨y, hy, hyeq⟩ := List.mem_map.mp hi
      have hylt : y < (alGet vs s).length :=
        hbound y (split_indices_chunk_subset indices c hc y hy)
      omega
  · rw [List.length_append, List.length_append, List.length_map,
      List.length_replicate, hlen]
  · omega

/-- The fold of `join_pass` over the shader passes preserves `GDInv` and
records, for each pass in order, one copy of that pass's shader index per
face chunk. -/
theorem join_fold_spec (vs : AList (List SourceVertex)) :
    ∀ (pairs : AList (List Nat)) (gd : GeometryData),
      (∀ p ∈ pairs, ∀ i ∈ p.2, i < (alGet vs p.1).length) → GDInv gd →
      GDInv (pairs.foldl (fun gd si => join_pass vs gd si.1 si.2) gd) ∧
      (pairs.foldl (fun gd si => join_pass vs gd si.1 si.2) gd).material_indices =
        gd.material_indices ++
          pairs.flatMap (fun p => List.replicate (split_indices p.2).length p.1) := by
  intro pairs
  induction pairs with
  | nil => exact fun gd _ hinv => ⟨hinv, by simp⟩
  | cons hd tl ih =>
    intro gd hb hinv
    simp only [List.foldl_cons]
    obtain ⟨hinv1, hmat1, -⟩ :=
      join_pass_spec vs gd hd.1 hd.2 (hb hd (List.mem_cons_self hd tl)) hinv
    obtain ⟨hinv2, hmat2⟩ :=
      ih _ (fun p hp => hb p (List.mem_cons_of_mem _ hp)) hinv1
    refine ⟨hinv2, ?_⟩
    rw [hmat2, hmat1]
    simp [List.flatMap_cons, List.append_assoc]

/-- C1: for every ordered list of geometry blocks in which each block's index
buffer contains only indices below that block's own vertex count, the
`GeometryData` produced by `join_geometries` satisfies: every component of
every face is strictly below the number of vertices;
`material_indices` and `faces` have the same length; and `material_indices`
consists, pass by pass (in the per-shader order of
`get_vertex_data_by_shader_index`), of that pass's shader index repeated once
per face decoded from that pass's index list — i.e. each face's material
index is the `shader_index` of the block group the face was decoded from. -/
theorem join_geometries_index_integrity (geometries : List GeometryItem)
    (h : ∀ g ∈ geometries, ∀ i ∈ g.index_data, i < g.vertex_data.length) :
    (∀ f ∈ (join_geometries geometries).faces, ∀ i ∈ f,
        i < (join_geometries geometries).vertices.length) ∧
    (join_geometries geometries).material_indices.length =
      (join_geometries geometries).faces.length ∧
    (join_geometries geometries).material_indices =
      (get_vertex_data_by_shader_index geometries).2.flatMap
        (fun p => List.replicate (split_indices p.2).length p.1) := by
  obtain ⟨-, -, hbound⟩ := get_vertex_data_by_shader_index_inv geometries h
  have hstart : GDInv GeometryData.empty := by
    constructor
    · intro f hf
      simp [GeometryData.empty] at hf
    · rfl
  obtain ⟨⟨hfaces, hlen⟩, hmat⟩ :=
    join_fold_spec (get_vertex_data_by_shader_index geometries).1
      (get_vertex_data_by_shader_index geometries).2 GeometryData.empty hbound hstart
  exact ⟨hfaces, hlen, by simpa [GeometryData.empty] using hmat⟩

/-- Witness for C1: two 3-vertex blocks with in-range index buffers, shaders
0 and 1; the joined data has 2 faces, both-in range, and material indices
`[0, 1]`. -/
theorem join_geometries_index_integrity_witness :
    (∀ f ∈ (join_geometries
        [⟨[⟨(0, 0, 0), none, none, [], []⟩, ⟨(1, 0, 0), none, none, [], []⟩,
           ⟨(0, 1, 0), none, none, [], []⟩], [0, 1, 2], 0⟩,
         ⟨[⟨(0, 0, 1), none, none, [], []⟩, ⟨(1, 0, 1), none, none, [], []⟩,
           ⟨(0, 1, 1), none, none, [], []⟩], [2, 1, 0], 1⟩]).faces, ∀ i ∈ f,
        i < (join_geometries
        [⟨[⟨(0, 0, 0), none, none, [], []⟩, ⟨(1, 0, 0), none, none, [], []⟩,
           ⟨(0, 1, 0), none, none, [], []⟩], [0, 1, 2], 0⟩,
         ⟨[⟨(0, 0, 1), none, none, [], []⟩, ⟨(1, 0, 1), none, none, [], []⟩,
           ⟨(0, 1, 1), none, none, [], []⟩], [2, 1, 0], 1⟩]).vertices.length) ∧
    (join_geometries
        [⟨[⟨(0, 0, 0), none, none, [], []⟩, ⟨(1, 0, 0), none, none, [], []⟩,
           ⟨(0, 1, 0), none, none, [], []⟩], [0, 1, 2], 0⟩,
         ⟨[⟨(0, 0, 1), none, none, [], []⟩, ⟨(1, 0, 1), none, none, [], []⟩,
           ⟨(0, 1, 1), none, none, [], []⟩], [2, 1, 0], 1⟩]).material_indices.length =
      (join_geometries
        [⟨[⟨(0, 0, 0), none, none, [], []⟩, ⟨(1, 0, 0), none, none, [], []⟩,
           ⟨(0, 1, 0), none, none, [], []⟩], [0, 1, 2], 0⟩,
         ⟨[⟨(0, 0, 1), none, none, [], []⟩, ⟨(1, 0, 1), none, none, [], []⟩,
           ⟨(0, 1, 1), none, none, [], []⟩], [2, 1, 0], 1⟩]).faces.length ∧
    (join_geometries
        [⟨[⟨(0, 0, 0), none, none, [], []⟩, ⟨(1, 0, 0), none, none, [], []⟩,
           ⟨(0, 1, 0), none, none, [], []⟩], [0, 1, 2], 0⟩,
         ⟨[⟨(0, 0, 1), none, none, [], []⟩, ⟨(1, 0, 1), none, none, [], []⟩,
           ⟨(0, 1, 1), none, none, [], []⟩], [2, 1, 0], 1⟩]).material_indices =
      (get_vertex_data_by_shader_index
        [⟨[⟨(0, 0, 0), none, none, [], []⟩, ⟨(1, 0, 0), none, none, [], []⟩,
           ⟨(0, 1, 0), none, none, [], []⟩], [0, 1, 2], 0⟩,
         ⟨[⟨(0, 0, 1), none, none, [], []⟩, ⟨(1, 0, 1), none, none, [], []⟩,
           ⟨(0, 1, 1), none, none, [], []⟩], [2, 1, 0], 1⟩]).2.flatMap
        (fun p => List.replicate (split_indices p.2).length p.1) :=
  join_geometries_index_integrity
    [⟨[⟨(0, 0, 0), none, none, [], []⟩, ⟨(1, 0, 0), none, none, [], []⟩,
       ⟨(0, 1, 0), none, none, [], []⟩], [0, 1, 2], 0⟩,
     ⟨[⟨(0, 0, 1), none, none, [], []⟩, ⟨(1, 0, 1), none, none, [], []⟩,
       ⟨(0, 1, 1), none, none, [], []⟩], [2, 1, 0], 1⟩]
    (by decide)

end Sollumz
